import Mathlib

/-!
Verification of the `input_timetable` component (a day-cyclic binary-state
timetable engine).  The definitions below are a shallow embedding of the
class `InputTimeTable` and its helpers: times of day are modelled as `Nat`
seconds since midnight (the engine works at second resolution), the two
states `"on"`/`"off"` as `Bool` (`true` = on), and the Python `list.sort`
(a stable sort keyed on `event.time`) as `List.insertionSort` on the
reflexive time order, which is likewise stable for equal keys.
-/

/-- Class `StateEvent` of the source: a transition event carrying a time of
day (seconds since midnight) and a binary state value. -/
structure StateEvent where
  time : Nat
  state : Bool
deriving DecidableEq, Repr

/-- Constant `MIDNIGHT = datetime.time()`, i.e. 00:00:00. -/
def MIDNIGHT : Nat := 0

/-- Comparison used by `_sort_timetable` via `key=lambda event: event.time`. -/
def timeLe (a b : StateEvent) : Prop := a.time ≤ b.time

instance : DecidableRel timeLe := fun a b => Nat.decLe a.time b.time

instance : IsTotal StateEvent timeLe := ⟨fun a b => Nat.le_total a.time b.time⟩

instance : IsTrans StateEvent timeLe := ⟨fun _ _ _ hab hbc => Nat.le_trans hab hbc⟩

/-- The invariant of the data model: the event list is strictly ascending by
time (which in particular forbids duplicate times). -/
def SortedTT (tt : List StateEvent) : Prop :=
  List.Pairwise (fun a b => a.time < b.time) tt

instance (tt : List StateEvent) : Decidable (SortedTT tt) :=
  List.instDecidablePairwise tt

/-- Method `_sort_timetable`: `self._timetable.sort(key=lambda event: event.time)`,
a stable sort by time. -/
def _sort_timetable (tt : List StateEvent) : List StateEvent :=
  List.insertionSort timeLe tt

/-- The `for event in self._timetable` walk of the `state` property: `prev`
starts at `StateEvent(MIDNIGHT, last.state)`; the loop breaks as soon as
`prev.time <= now < event.time` and the result is `prev.state` (also when
the walk falls off the end of the list). -/
def stateLoop (now : Nat) : StateEvent → List StateEvent → Bool
  | prev, [] => prev.state
  | prev, e :: rest =>
    if prev.time ≤ now ∧ now < e.time then prev.state else stateLoop now e rest

/-- Property `InputTimeTable.state`: OFF (`false`) for an empty timetable,
otherwise the walk above seeded with the last event's state (the wrap-around
candidate). -/
def timetable_state (tt : List StateEvent) (now : Nat) : Bool :=
  match tt.getLast? with
  | none => false
  | some lastEv => stateLoop now ⟨MIDNIGHT, lastEv.state⟩ tt

/-- The `for event in self._timetable` walk of `_schedule_update`: `prev`
starts at `MIDNIGHT`; on `prev <= time < event.time` the next change is
today at `event.time`; falling off the end means no boundary is ahead today. -/
def nextChangeLoop (now : Nat) : Nat → List StateEvent → Option Nat
  | _, [] => none
  | prev, e :: rest =>
    if prev ≤ now ∧ now < e.time then some e.time else nextChangeLoop now e.time rest

/-- Method `_schedule_update`, reduced to the arming decision it makes:
`none` when no timer is armed (timetable shorter than 2 events), otherwise
`some (dayOffset, timeOfDay)` for the point in time handed to
`async_track_point_in_time` (`dayOffset = 0` is today, `1` is tomorrow). -/
def scheduleTarget (tt : List StateEvent) (now : Nat) : Option (Nat × Nat) :=
  match tt with
  | [] => none
  | [_] => none
  | e :: rest =>
    match nextChangeLoop now MIDNIGHT (e :: rest) with
    | some t => some (0, t)
    | none => some (1, e.time)

/-- Membership test of the `for ... if event.time == time` loops. -/
def hasTime (tt : List StateEvent) (t : Nat) : Bool :=
  tt.any (fun e => e.time == t)

/-- First half of `async_set`: the first event whose time equals `t` gets its
state overwritten in place; later events (duplicates included) are untouched. -/
def updateFirst : List StateEvent → Nat → Bool → List StateEvent
  | [], _, _ => []
  | e :: rest, t, s =>
    if e.time = t then ⟨e.time, s⟩ :: rest else e :: updateFirst rest t s

/-- Method `async_set` on the event list: the `for/else` upsert — overwrite
the first event at exactly `time`, or else append a new event and re-sort. -/
def async_set (tt : List StateEvent) (t : Nat) (s : Bool) : List StateEvent :=
  if hasTime tt t then updateFirst tt t s
  else _sort_timetable (tt ++ [⟨t, s⟩])

/-- Removal step of `async_unset`: `self._timetable.remove(event)` on the
first event found with the given time deletes exactly that occurrence. -/
def removeFirstTime : List StateEvent → Nat → List StateEvent
  | [], _ => []
  | e :: rest, t =>
    if e.time = t then rest else e :: removeFirstTime rest t

/-- Method `async_unset` on the event list: the `for/else` either removes the
first event at exactly `time`, or raises `vol.Invalid` leaving the list as it
was. -/
def async_unset (tt : List StateEvent) (t : Nat) : Except String (List StateEvent) :=
  if hasTime tt t then Except.ok (removeFirstTime tt t)
  else Except.error ("The time does not exist")

/-- Method `async_reset` on the event list: `self._timetable.clear()`. -/
def async_reset (_ : List StateEvent) : List StateEvent := []

/-- Method `async_reconfig` on the event list: reject the input when the set
of its times is smaller than the list (`len(timetable) > len({...})`, i.e. a
duplicate time exists), otherwise replace the stored list with the input,
re-sorted. -/
def async_reconfig (input : List StateEvent) : Except String (List StateEvent) :=
  if (input.map (fun e => e.time)).dedup.length < input.length
  then Except.error ("The same time is not allowed more than once")
  else Except.ok (_sort_timetable input)

/-- Digit characters as written by `datetime.time.isoformat` (zero padded). -/
def digitChar : Nat → Char
  | 0 => '0'
  | 1 => '1'
  | 2 => '2'
  | 3 => '3'
  | 4 => '4'
  | 5 => '5'
  | 6 => '6'
  | 7 => '7'
  | 8 => '8'
  | _ => '9'

/-- Value of a decimal digit character, `none` on anything else. -/
def digitVal (c : Char) : Option Nat :=
  if c = '0' then some 0
  else if c = '1' then some 1
  else if c = '2' then some 2
  else if c = '3' then some 3
  else if c = '4' then some 4
  else if c = '5' then some 5
  else if c = '6' then some 6
  else if c = '7' then some 7
  else if c = '8' then some 8
  else if c = '9' then some 9
  else none

/-- Python `time.isoformat()` on a time whose microsecond is 0: the fixed
eight-character, zero-padded form `HH:MM:SS`. -/
def time_isoformat (n : Nat) : String :=
  String.mk [digitChar (n / 3600 / 10), digitChar (n / 3600 % 10), ':',
    digitChar (n % 3600 / 60 / 10), digitChar (n % 3600 / 60 % 10), ':',
    digitChar (n % 60 / 10), digitChar (n % 60 % 10)]

/-- Character-level worker for `datetime.time.fromisoformat` on the
`HH:MM:SS` shape this component writes: two-digit fields separated by
colons, out-of-range fields rejected; `none` models the raised
`ValueError`. -/
def parseHMS : List Char → Option Nat
  | [h1, h2, c1, m1, m2, c2, s1, s2] =>
    if c1 = ':' ∧ c2 = ':' then
      match digitVal h1, digitVal h2, digitVal m1, digitVal m2, digitVal s1, digitVal s2 with
      | some a, some b, some c, some d, some e, some f =>
        if 10 * a + b < 24 ∧ 10 * c + d < 60 ∧ 10 * e + f < 60 then
          some ((10 * a + b) * 3600 + (10 * c + d) * 60 + (10 * e + f))
        else none
      | _, _, _, _, _, _ => none
    else none
  | _ => none

/-- Python `datetime.time.fromisoformat`, restricted as above. -/
def time_fromisoformat (str : String) : Option Nat :=
  parseHMS str.data

/-- Method `_timetable_to_attribute`: each event becomes its time in
isoformat paired with its state string, in stored order. -/
def _timetable_to_attribute (tt : List StateEvent) : List (String × String) :=
  tt.map (fun e => (time_isoformat e.time, if e.state then ("on") else ("off")))

/-- List comprehension of `_timetable_from_attribute`: parse every entry,
the whole load failing (a raised `ValueError`) if any time string is bad. -/
def eventsFromAttribute : List (String × String) → Option (List StateEvent)
  | [] => some []
  | p :: rest =>
    match time_fromisoformat p.1, eventsFromAttribute rest with
    | some n, some evs => some (⟨n, p.2 == "on"⟩ :: evs)
    | _, _ => none

/-- Method `_timetable_from_attribute`: rebuild the events from the attribute
list, then `_sort_timetable`; uniqueness of times is not re-checked. -/
def _timetable_from_attribute (attr : List (String × String)) : Option (List StateEvent) :=
  (eventsFromAttribute attr).map _sort_timetable

/-- Mutable fields of an `InputTimeTable` entity: its config dict, its
`_timetable`, and `_event_unsub` (the outstanding timer, recorded as the
point in time it was armed for, day offset paired with time of day). -/
structure TTEntity where
  config : List (String × String)
  timetable : List StateEvent
  event_unsub : Option (Nat × Nat)
deriving DecidableEq, Repr

/-- Method `_update_state`: re-run `_schedule_update` (leaving `_event_unsub`
armed at the new target, or cancelled) and `async_write_ha_state` (publish
the state computed from the timetable at the current instant). -/
def _update_state (now : Nat) (ent : TTEntity) : TTEntity × Bool :=
  ({ ent with event_unsub := scheduleTarget ent.timetable now },
   timetable_state ent.timetable now)

/-- Result of one entity-service call: the entity afterwards, the state
published to observers (`none` when no recomputation happened), and the
raised error if any. -/
structure OpResult where
  entity : TTEntity
  published : Option Bool
  error : Option String
deriving DecidableEq, Repr

/-- Method `async_unset` at entity level: the exception is raised before any
mutation, so a failed call returns the entity (timetable and timer alike)
untouched and publishes nothing. -/
def entity_unset (now t : Nat) (ent : TTEntity) : OpResult :=
  match async_unset ent.timetable t with
  | Except.error msg => ⟨ent, none, some msg⟩
  | Except.ok tt =>
    let u := _update_state now { ent with timetable := tt }
    ⟨u.1, some u.2, none⟩

/-- Method `async_reconfig` at entity level: the duplicate check runs before
the assignment to `self._timetable`, so a rejected call leaves the entity
untouched. -/
def entity_reconfig (now : Nat) (input : List StateEvent) (ent : TTEntity) : OpResult :=
  match async_reconfig input with
  | Except.error msg => ⟨ent, none, some msg⟩
  | Except.ok tt =>
    let u := _update_state now { ent with timetable := tt }
    ⟨u.1, some u.2, none⟩

/-- Method `async_update_config`: replace `self._config` wholesale, then
`_update_state`. -/
def entity_update_config (now : Nat) (cfg : List (String × String)) (ent : TTEntity) : OpResult :=
  let u := _update_state now { ent with config := cfg }
  ⟨u.1, some u.2, none⟩

/-- Actions `InputTimeTable` code can take on the timer resource. -/
inductive TimerAction where
  | cancel : TimerAction
  | arm : Nat × Nat → TimerAction
deriving DecidableEq, Repr

/-- Trace of timer actions performed by one `_schedule_update` run: first the
cancellation of an already armed timer (`self._event_unsub()`), then the
arming via `async_track_point_in_time` unless fewer than two events exist. -/
def schedule_update_actions (unsub : Option (Nat × Nat)) (tt : List StateEvent) (now : Nat) : List TimerAction :=
  (match unsub with
   | some _ => [TimerAction.cancel]
   | none => []) ++
  (match scheduleTarget tt now with
   | some tgt => [TimerAction.arm tgt]
   | none => [])

/-- Number of outstanding timers after a trace of actions, starting from
`init` outstanding ones. -/
def outstandingAfter (init : Nat) (acts : List TimerAction) : Nat :=
  List.foldl
    (fun n a =>
      match a with
      | TimerAction.cancel => n - 1
      | TimerAction.arm _ => n + 1)
    init acts

/-- Modelled from the source by absence: `InputTimeTable` overrides no
removal hook (the class has no `async_will_remove_from_hass`), so tearing
the entity down runs none of this component's code and performs no timer
action. -/
def will_remove_from_hass_actions : List TimerAction := []

/-- Walking events whose times have all passed returns the state of the last
event walked (the seed if there is none). -/
lemma stateLoop_all_le (now : Nat) :
    ∀ (events : List StateEvent) (prev : StateEvent),
      (∀ f ∈ events, f.time ≤ now) →
      stateLoop now prev events = (events.getLastD prev).state := by
  intro events
  induction events with
  | nil => intro prev _; rfl
  | cons e rest ih =>
    intro prev h
    have he : e.time ≤ now := h e (List.mem_cons_self e rest)
    have hne : ¬(prev.time ≤ now ∧ now < e.time) := by
      rintro ⟨-, hlt⟩; omega
    simp only [stateLoop, if_neg hne]
    rw [ih e (fun f hf => h f (List.mem_cons_of_mem e hf)), List.getLastD_cons]

/-- Walking past a block of events whose times have all passed just moves the
carried event to the last element of the block. -/
lemma stateLoop_append (now : Nat) :
    ∀ (l1 rest : List StateEvent) (prev : StateEvent),
      (∀ f ∈ l1, f.time ≤ now) →
      stateLoop now prev (l1 ++ rest) = stateLoop now (l1.getLastD prev) rest := by
  intro l1
  induction l1 with
  | nil => intro rest prev _; rfl
  | cons e l ih =>
    intro rest prev h
    have he : e.time ≤ now := h e (List.mem_cons_self e l)
    have hne : ¬(prev.time ≤ now ∧ now < e.time) := by
      rintro ⟨-, hlt⟩; omega
    simp only [List.cons_append, stateLoop, if_neg hne, List.append_eq]
    rw [ih rest e (fun f hf => h f (List.mem_cons_of_mem e hf)), List.getLastD_cons]

/-- Unfolding of `timetable_state` on a manifestly non-empty list. -/
lemma timetable_state_concat (l : List StateEvent) (lastEv : StateEvent) (now : Nat) :
    timetable_state (l ++ [lastEv]) now
      = stateLoop now ⟨MIDNIGHT, lastEv.state⟩ (l ++ [lastEv]) := by
  unfold timetable_state
  rw [List.getLast?_concat]

/-- C1: state-at-instant computation.  An empty timetable is OFF; otherwise
the walk starts from the wrap-around candidate (the last event's state): an
instant strictly before the first boundary yields that candidate, an instant
between two consecutive boundaries yields the earlier event's state, and an
instant on or after the last boundary yields the last event's state.  The
spec's worked examples `[(08:00, ON), (20:00, OFF)]` and `[(12:00, ON)]`
evaluate accordingly. -/
theorem C1_state_at_instant :
    (∀ now, timetable_state [] now = false)
    ∧ (∀ (e lastEv : StateEvent) (l : List StateEvent) (now : Nat),
        now < e.time →
        timetable_state (e :: (l ++ [lastEv])) now = lastEv.state)
    ∧ (∀ (now : Nat) (e : StateEvent), timetable_state [e] now = e.state)
    ∧ (∀ (l : List StateEvent) (lastEv : StateEvent) (now : Nat),
        SortedTT (l ++ [lastEv]) → lastEv.time ≤ now →
        timetable_state (l ++ [lastEv]) now = lastEv.state)
    ∧ (∀ (l1 l2 : List StateEvent) (e1 e2 : StateEvent) (now : Nat),
        SortedTT (l1 ++ e1 :: e2 :: l2) →
        e1.time ≤ now → now < e2.time →
        timetable_state (l1 ++ e1 :: e2 :: l2) now = e1.state)
    ∧ timetable_state [⟨28800, true⟩, ⟨72000, false⟩] 28799 = false
    ∧ timetable_state [⟨28800, true⟩, ⟨72000, false⟩] 28800 = true
    ∧ timetable_state [⟨28800, true⟩, ⟨72000, false⟩] 71999 = true
    ∧ timetable_state [⟨28800, true⟩, ⟨72000, false⟩] 72000 = false
    ∧ (∀ now : Nat, timetable_state [⟨43200, true⟩] now = true) := by
  have hsingle : ∀ (now : Nat) (e : StateEvent), timetable_state [e] now = e.state := by
    intro now e
    show timetable_state ([] ++ [e]) now = e.state
    rw [timetable_state_concat]
    simp only [List.nil_append, stateLoop]
    split
    · rfl
    · rfl
  refine ⟨fun _ => rfl, ?_, hsingle, ?_, ?_, by decide, by decide, by decide, by decide,
    fun now => hsingle now ⟨43200, true⟩⟩
  · intro e lastEv l now hlt
    show timetable_state ((e :: l) ++ [lastEv]) now = lastEv.state
    rw [timetable_state_concat]
    simp only [List.cons_append, stateLoop]
    rw [if_pos ⟨Nat.zero_le now, hlt⟩]
  · intro l lastEv now hsort hle
    have h : ∀ f ∈ l ++ [lastEv], f.time ≤ now := by
      intro f hf
      rcases List.mem_append.mp hf with hf | hf
      · have := (List.pairwise_append.mp hsort).2.2 f hf lastEv (List.mem_singleton_self _)
        omega
      · rw [List.mem_singleton.mp hf]
        exact hle
    rw [timetable_state_concat, stateLoop_all_le now _ _ h, List.getLastD_concat]
  · intro l1 l2 e1 e2 now hsort h1 h2
    have hl1 : ∀ f ∈ l1 ++ [e1], f.time ≤ now := by
      intro f hf
      rcases List.mem_append.mp hf with hf | hf
      · have hfe : f.time < e1.time :=
          (List.pairwise_append.mp hsort).2.2 f hf e1 (List.mem_cons_self _ _)
        omega
      · rw [List.mem_singleton.mp hf]; exact h1
    cases hlast : (l1 ++ e1 :: e2 :: l2).getLast? with
    | none =>
      rw [List.getLast?_eq_none_iff] at hlast
      exact absurd hlast (by simp)
    | some lastEv =>
      unfold timetable_state
      rw [hlast]
      show stateLoop now ⟨MIDNIGHT, lastEv.state⟩ (l1 ++ e1 :: e2 :: l2) = e1.state
      rw [List.append_cons l1 e1 (e2 :: l2)]
      rw [stateLoop_append now (l1 ++ [e1]) (e2 :: l2) _ hl1, List.getLastD_concat]
      simp only [stateLoop]
      rw [if_pos ⟨h1, h2⟩]

/-- Witness for C1: the general conjuncts applied at concrete timetables
(wrap-around before 08:00, past the last boundary, and between 08:00 and
20:00 of a three-event table). -/
theorem C1_state_at_instant_witness :
    timetable_state [⟨28800, true⟩, ⟨72000, false⟩] 3600 = false
    ∧ timetable_state [⟨28800, true⟩, ⟨72000, false⟩] 80000 = false
    ∧ timetable_state [⟨21600, true⟩, ⟨28800, false⟩, ⟨72000, true⟩] 30000 = false := by
  refine ⟨?_, ?_, ?_⟩
  · exact C1_state_at_instant.2.1 ⟨28800, true⟩ ⟨72000, false⟩ [] 3600 (by decide)
  · exact C1_state_at_instant.2.2.2.1 [⟨28800, true⟩] ⟨72000, false⟩ 80000 (by decide) (by decide)
  · exact C1_state_at_instant.2.2.2.2.1 [⟨21600, true⟩] [] ⟨28800, false⟩ ⟨72000, true⟩ 30000
      (by decide) (by decide) (by decide)

/-- Characterization of the `_schedule_update` walk: once the carried
boundary has passed, the loop returns the time of the first event strictly
ahead of `now`, if any. -/
lemma nextChangeLoop_eq_find (now : Nat) :
    ∀ (events : List StateEvent) (prev : Nat), prev ≤ now →
      nextChangeLoop now prev events
        = (events.find? (fun e => decide (now < e.time))).map (fun e => e.time) := by
  intro events
  induction events with
  | nil => intro prev _; rfl
  | cons e rest ih =>
    intro prev hprev
    by_cases hlt : now < e.time
    · simp only [nextChangeLoop, if_pos (And.intro hprev hlt)]
      rw [List.find?_cons_of_pos _ (by simpa using hlt)]
      rfl
    · have hne : ¬(prev ≤ now ∧ now < e.time) := by rintro ⟨-, h⟩; omega
      simp only [nextChangeLoop, if_neg hne]
      rw [List.find?_cons_of_neg _ (by simpa using hlt)]
      exact ih e.time (by omega)

/-- In a sorted timetable the first event strictly ahead of `now` is also
the earliest such event. -/
lemma find_ahead_min (now : Nat) :
    ∀ (tt : List StateEvent) (e : StateEvent), SortedTT tt →
      tt.find? (fun f => decide (now < f.time)) = some e →
      e ∈ tt ∧ now < e.time ∧ ∀ f ∈ tt, now < f.time → e.time ≤ f.time := by
  intro tt
  induction tt with
  | nil => intro e _ h; exact absurd h (by simp)
  | cons g rest ih =>
    intro e hsort hfind
    by_cases hg : now < g.time
    · rw [List.find?_cons_of_pos _ (by simpa using hg)] at hfind
      obtain rfl := Option.some.inj hfind
      refine ⟨List.mem_cons_self _ _, hg, ?_⟩
      intro f hf _
      rcases List.mem_cons.mp hf with rfl | hf
      · exact Nat.le_refl _
      · exact Nat.le_of_lt ((List.pairwise_cons.mp hsort).1 f hf)
    · rw [List.find?_cons_of_neg _ (by simpa using hg)] at hfind
      obtain ⟨hmem, hlt, hmin⟩ := ih e (List.pairwise_cons.mp hsort).2 hfind
      refine ⟨List.mem_cons_of_mem _ hmem, hlt, ?_⟩
      intro f hf hnf
      rcases List.mem_cons.mp hf with rfl | hf
      · omega
      · exact hmin f hf hnf

/-- Unfolding of `scheduleTarget` on a timetable of at least two events. -/
lemma scheduleTarget_cons_cons (a b : StateEvent) (rest : List StateEvent) (now : Nat) :
    scheduleTarget (a :: b :: rest) now
      = match nextChangeLoop now MIDNIGHT (a :: b :: rest) with
        | some t => some (0, t)
        | none => some (1, a.time) := rfl

/-- C2: next-transition scheduling.  With fewer than two events no timer is
armed and a previously armed one is only cancelled; with at least two events
the timer is armed for today at the earliest boundary strictly ahead of the
current time of day, or for tomorrow at the first event's time when every
boundary has passed.  The spec's example `[(06:00, ON), (18:00, OFF)]`
evaluates accordingly at 09:00 and 19:00. -/
theorem C2_next_transition :
    (∀ (tt : List StateEvent) (now : Nat), tt.length < 2 → scheduleTarget tt now = none)
    ∧ (∀ (tgt : Nat × Nat) (tt : List StateEvent) (now : Nat), tt.length < 2 →
        schedule_update_actions (some tgt) tt now = [TimerAction.cancel])
    ∧ (∀ (tt : List StateEvent) (now : Nat) (e : StateEvent),
        2 ≤ tt.length → SortedTT tt →
        tt.find? (fun f => decide (now < f.time)) = some e →
        scheduleTarget tt now = some (0, e.time)
          ∧ now < e.time ∧ ∀ f ∈ tt, now < f.time → e.time ≤ f.time)
    ∧ (∀ (e : StateEvent) (rest : List StateEvent) (now : Nat),
        2 ≤ (e :: rest).length →
        (∀ f ∈ e :: rest, f.time ≤ now) →
        scheduleTarget (e :: rest) now = some (1, e.time))
    ∧ scheduleTarget [⟨21600, true⟩, ⟨64800, false⟩] 32400 = some (0, 64800)
    ∧ scheduleTarget [⟨21600, true⟩, ⟨64800, false⟩] 68400 = some (1, 21600) := by
  have hshort : ∀ (tt : List StateEvent) (now : Nat), tt.length < 2 →
      scheduleTarget tt now = none := by
    intro tt now hlen
    match tt, hlen with
    | [], _ => rfl
    | [_], _ => rfl
  refine ⟨hshort, ?_, ?_, ?_, by decide, by decide⟩
  · intro tgt tt now hlen
    simp only [schedule_update_actions, hshort tt now hlen]
    rfl
  · intro tt now e hlen hsort hfind
    obtain ⟨a, b, rest, rfl⟩ : ∃ a b rest, tt = a :: b :: rest := by
      cases tt with
      | nil => exact absurd hlen (by simp)
      | cons a tl =>
        cases tl with
        | nil => exact absurd hlen (by simp)
        | cons b rest => exact ⟨a, b, rest, rfl⟩
    obtain ⟨-, hlt, hmin⟩ :=
      find_ahead_min now (a :: b :: rest) e hsort hfind
    refine ⟨?_, hlt, hmin⟩
    rw [scheduleTarget_cons_cons,
      nextChangeLoop_eq_find now (a :: b :: rest) MIDNIGHT (Nat.zero_le now), hfind]
    rfl
  · intro e rest now hlen hpassed
    obtain ⟨b, tl, rfl⟩ : ∃ b tl, rest = b :: tl := by
      cases rest with
      | nil => exact absurd hlen (by simp)
      | cons b tl => exact ⟨b, tl, rfl⟩
    have hfind : (e :: b :: tl).find? (fun f => decide (now < f.time)) = none := by
      rw [List.find?_eq_none]
      intro f hf
      have := hpassed f hf
      simpa using by omega
    rw [scheduleTarget_cons_cons,
      nextChangeLoop_eq_find now (e :: b :: tl) MIDNIGHT (Nat.zero_le now), hfind]
    rfl

/-- Witness for C2 at the concrete example timetable. -/
theorem C2_next_transition_witness :
    scheduleTarget [⟨21600, true⟩] 32400 = none
    ∧ schedule_update_actions (some (0, 64800)) [⟨21600, true⟩] 32400 = [TimerAction.cancel]
    ∧ scheduleTarget [⟨21600, true⟩, ⟨64800, false⟩] 32400 = some (0, 64800)
    ∧ scheduleTarget [⟨21600, true⟩, ⟨64800, false⟩] 68400 = some (1, 21600) := by
  refine ⟨?_, ?_, ?_, ?_⟩
  · exact C2_next_transition.1 [⟨21600, true⟩] 32400 (by decide)
  · exact C2_next_transition.2.1 (0, 64800) [⟨21600, true⟩] 32400 (by decide)
  · exact (C2_next_transition.2.2.1 [⟨21600, true⟩, ⟨64800, false⟩] 32400 ⟨64800, false⟩
      (by decide) (by decide) (by decide)).1
  · exact C2_next_transition.2.2.2.1 ⟨21600, true⟩ [⟨64800, false⟩] 68400 (by decide) (by decide)

/-- Overwriting the state of the first event at a time leaves the sequence
of times untouched. -/
lemma updateFirst_map_time (t : Nat) (s : Bool) :
    ∀ tt : List StateEvent,
      (updateFirst tt t s).map (fun e => e.time) = tt.map (fun e => e.time) := by
  intro tt
  induction tt with
  | nil => rfl
  | cons e rest ih =>
    by_cases h : e.time = t
    · simp [updateFirst, if_pos h]
    · simp [updateFirst, if_neg h, ih]

/-- Strict sortedness of a timetable seen on its time sequence. -/
lemma sortedTT_iff_map (tt : List StateEvent) :
    SortedTT tt ↔ List.Pairwise (fun a b : Nat => a < b) (tt.map (fun e => e.time)) := by
  unfold SortedTT
  rw [List.pairwise_map]

/-- Strictly sorted times are pairwise distinct. -/
lemma sortedTT_nodup_times (tt : List StateEvent) (h : SortedTT tt) :
    (tt.map (fun e => e.time)).Nodup :=
  ((sortedTT_iff_map tt).mp h).imp (fun hab => Nat.ne_of_lt hab)

/-- Weakly sorted with pairwise distinct times is strictly sorted. -/
lemma sortedTT_of_le_nodup (tt : List StateEvent)
    (hle : List.Pairwise timeLe tt) (hnd : (tt.map (fun e => e.time)).Nodup) :
    SortedTT tt := by
  have hne : List.Pairwise (fun a b : StateEvent => a.time ≠ b.time) tt :=
    List.pairwise_map.mp hnd
  exact (hle.and hne).imp (fun h => Nat.lt_of_le_of_ne h.1 h.2)

/-- Output of `_sort_timetable` is weakly sorted by time. -/
lemma sorted_sort_timetable (tt : List StateEvent) :
    List.Pairwise timeLe (_sort_timetable tt) :=
  List.sorted_insertionSort timeLe tt

/-- Output of `_sort_timetable` is a permutation of its input. -/
lemma sort_timetable_perm (tt : List StateEvent) :
    (_sort_timetable tt).Perm tt :=
  List.perm_insertionSort timeLe tt

/-- Appending an event whose time is new and re-sorting restores the strict
invariant. -/
lemma sortedTT_sort_append (tt : List StateEvent) (t : Nat) (s : Bool)
    (hsort : SortedTT tt) (hnew : t ∉ tt.map (fun e => e.time)) :
    SortedTT (_sort_timetable (tt ++ [⟨t, s⟩])) := by
  apply sortedTT_of_le_nodup _ (sorted_sort_timetable _)
  rw [((sort_timetable_perm (tt ++ [StateEvent.mk t s])).map (fun e => e.time)).nodup_iff]
  rw [List.map_append]
  refine List.Nodup.append (sortedTT_nodup_times tt hsort) (List.nodup_singleton t) ?_
  intro a ha hb
  rw [show (List.map (fun e => e.time) [(⟨t, s⟩ : StateEvent)]) = [t] from rfl] at hb
  rw [List.mem_singleton.mp hb] at ha
  exact hnew ha

/-- Method `async_set` preserves the strict sort invariant. -/
lemma sortedTT_async_set (tt : List StateEvent) (t : Nat) (s : Bool) (h : SortedTT tt) :
    SortedTT (async_set tt t s) := by
  unfold async_set
  by_cases hmem : hasTime tt t = true
  · rw [if_pos hmem, sortedTT_iff_map, updateFirst_map_time, ← sortedTT_iff_map]
    exact h
  · rw [if_neg hmem]
    apply sortedTT_sort_append tt t s h
    intro hin
    apply hmem
    unfold hasTime
    rw [List.any_eq_true]
    rcases List.mem_map.mp hin with ⟨e, he, ht⟩
    exact ⟨e, he, by simpa using ht⟩

/-- Removing the first event at a time yields a sublist. -/
lemma removeFirstTime_sublist (t : Nat) :
    ∀ tt : List StateEvent, (removeFirstTime tt t).Sublist tt := by
  intro tt
  induction tt with
  | nil => exact List.Sublist.refl []
  | cons e rest ih =>
    by_cases h : e.time = t
    · simp only [removeFirstTime, if_pos h]
      exact List.sublist_cons_self e rest
    · simp only [removeFirstTime, if_neg h]
      exact List.Sublist.cons₂ e ih

/-- Successful `async_reconfig` means the input times were distinct and the
result is the sorted input. -/
lemma async_reconfig_ok (input tt' : List StateEvent)
    (h : async_reconfig input = Except.ok tt') :
    (input.map (fun e => e.time)).Nodup ∧ tt' = _sort_timetable input := by
  unfold async_reconfig at h
  by_cases hc : (input.map (fun e => e.time)).dedup.length < input.length
  · rw [if_pos hc] at h
    exact absurd h (by simp)
  · rw [if_neg hc] at h
    have hle := (List.dedup_sublist (input.map (fun e => e.time))).length_le
    have hml := List.length_map input (fun e => e.time)
    have hlen : (input.map (fun e => e.time)).dedup.length
        = (input.map (fun e => e.time)).length := by omega
    have heq := (List.dedup_sublist (input.map (fun e => e.time))).eq_of_length hlen
    refine ⟨?_, (Except.ok.inj h).symm⟩
    rw [← heq]
    exact List.nodup_dedup _

/-- Duplicate input times make the `async_reconfig` guard fire. -/
lemma dup_times_dedup_lt (input : List StateEvent)
    (h : ¬(input.map (fun e => e.time)).Nodup) :
    (input.map (fun e => e.time)).dedup.length < input.length := by
  have hle := (List.dedup_sublist (input.map (fun e => e.time))).length_le
  have hml := List.length_map input (fun e => e.time)
  have hne : (input.map (fun e => e.time)).dedup.length
      ≠ (input.map (fun e => e.time)).length := by
    intro heq
    apply h
    rw [← (List.dedup_sublist _).eq_of_length heq]
    exact List.nodup_dedup _
  omega

/-- C3: sort/uniqueness invariant.  Starting from a strictly ascending
timetable, any sequence of `async_set` calls, a successful `async_unset`, an
`async_reset`, and a successful `async_reconfig` all leave the event list
strictly ascending by time (strict ascent forbids duplicate times). -/
theorem C3_sort_invariant :
    (∀ (tt : List StateEvent) (ops : List (Nat × Bool)), SortedTT tt →
        SortedTT (ops.foldl (fun acc p => async_set acc p.1 p.2) tt))
    ∧ (∀ (tt : List StateEvent) (t : Nat) (s : Bool), SortedTT tt →
        SortedTT (async_set tt t s))
    ∧ (∀ (tt tt' : List StateEvent) (t : Nat), SortedTT tt →
        async_unset tt t = Except.ok tt' → SortedTT tt')
    ∧ (∀ tt : List StateEvent, SortedTT (async_reset tt))
    ∧ (∀ input tt' : List StateEvent,
        async_reconfig input = Except.ok tt' → SortedTT tt') := by
  have hfold : ∀ (ops : List (Nat × Bool)) (tt : List StateEvent), SortedTT tt →
      SortedTT (ops.foldl (fun acc p => async_set acc p.1 p.2) tt) := by
    intro ops
    induction ops with
    | nil => intro tt h; exact h
    | cons p rest ih =>
      intro tt h
      exact ih _ (sortedTT_async_set tt p.1 p.2 h)
  refine ⟨fun tt ops h => hfold ops tt h, fun tt t s h => sortedTT_async_set tt t s h,
    ?_, fun _ => List.Pairwise.nil, ?_⟩
  · intro tt tt' t hsort hok
    unfold async_unset at hok
    by_cases hmem : hasTime tt t = true
    · rw [if_pos hmem] at hok
      obtain rfl := Except.ok.inj hok
      exact List.Pairwise.sublist (removeFirstTime_sublist t tt) hsort
    · rw [if_neg hmem] at hok
      exact absurd hok (by simp)
  · intro input tt' hok
    obtain ⟨hnd, rfl⟩ := async_reconfig_ok input tt' hok
    apply sortedTT_of_le_nodup _ (sorted_sort_timetable _)
    rw [((sort_timetable_perm input).map (fun e => e.time)).nodup_iff]
    exact hnd

/-- Witness for C3 at concrete mutation sequences. -/
theorem C3_sort_invariant_witness :
    SortedTT (List.foldl (fun acc p => async_set acc p.1 p.2) []
        ([(28800, true), (7200, false), (28800, false), (72000, false)]))
    ∧ SortedTT (async_set [⟨7200, true⟩, ⟨28800, false⟩] 7200 false)
    ∧ SortedTT [⟨28800, false⟩]
    ∧ SortedTT (async_reset [⟨7200, true⟩])
    ∧ SortedTT (_sort_timetable [⟨28800, true⟩, ⟨7200, false⟩]) := by
  refine ⟨?_, ?_, ?_, ?_, ?_⟩
  · exact C3_sort_invariant.1 []
      ([(28800, true), (7200, false), (28800, false), (72000, false)]) (by decide)
  · exact C3_sort_invariant.2.1 [⟨7200, true⟩, ⟨28800, false⟩] 7200 false (by decide)
  · exact C3_sort_invariant.2.2.1 [⟨7200, true⟩, ⟨28800, false⟩] [⟨28800, false⟩] 7200
      (by decide) (by rfl)
  · exact C3_sort_invariant.2.2.2.1 [⟨7200, true⟩]
  · exact C3_sort_invariant.2.2.2.2 [⟨28800, true⟩, ⟨7200, false⟩]
      (_sort_timetable [⟨28800, true⟩, ⟨7200, false⟩]) (by rfl)

/-- Distinct input times let the `async_reconfig` guard pass. -/
lemma async_reconfig_of_nodup (input : List StateEvent)
    (h : (input.map (fun e => e.time)).Nodup) :
    async_reconfig input = Except.ok (_sort_timetable input) := by
  have hguard : ¬((input.map (fun e => e.time)).dedup.length < input.length) := by
    rw [List.dedup_eq_self.mpr h]
    have := List.length_map input (fun e => e.time)
    omega
  unfold async_reconfig
  rw [if_neg hguard]

/-- Duplicate input times make `async_reconfig` raise. -/
lemma async_reconfig_of_dup (input : List StateEvent)
    (h : ¬(input.map (fun e => e.time)).Nodup) :
    async_reconfig input = Except.error ("The same time is not allowed more than once") := by
  unfold async_reconfig
  rw [if_pos (dup_times_dedup_lt input h)]

/-- C4: reconfig atomicity.  Duplicate times in the input raise
`DuplicateTimeError` (the `vol.Invalid` of the source) while the stored
entity — its timetable, its timer, everything — is returned untouched and
nothing is recomputed or published; distinct times succeed and the stored
table becomes exactly the input, sorted strictly ascending. -/
theorem C4_reconfig_atomicity :
    (∀ (ent : TTEntity) (input : List StateEvent) (now : Nat),
        ¬(input.map (fun e => e.time)).Nodup →
        entity_reconfig now input ent
          = ⟨ent, none, some ("The same time is not allowed more than once")⟩)
    ∧ (∀ (ent : TTEntity) (input : List StateEvent) (now : Nat),
        (input.map (fun e => e.time)).Nodup →
        (entity_reconfig now input ent).error = none
          ∧ (entity_reconfig now input ent).entity.timetable = _sort_timetable input
          ∧ ((entity_reconfig now input ent).entity.timetable).Perm input
          ∧ SortedTT (entity_reconfig now input ent).entity.timetable) := by
  refine ⟨?_, ?_⟩
  · intro ent input now hdup
    unfold entity_reconfig
    rw [async_reconfig_of_dup input hdup]
  · intro ent input now hnd
    unfold entity_reconfig
    rw [async_reconfig_of_nodup input hnd]
    refine ⟨rfl, rfl, sort_timetable_perm input, ?_⟩
    apply sortedTT_of_le_nodup _ (sorted_sort_timetable _)
    rw [((sort_timetable_perm input).map (fun e => e.time)).nodup_iff]
    exact hnd

/-- Witness for C4: a rejected and a successful reconfig on a concrete
entity. -/
theorem C4_reconfig_atomicity_witness :
    entity_reconfig 32400 [⟨7200, true⟩, ⟨7200, false⟩] ⟨[], [⟨3600, true⟩], none⟩
      = ⟨⟨[], [⟨3600, true⟩], none⟩, none, some ("The same time is not allowed more than once")⟩
    ∧ (entity_reconfig 32400 [⟨28800, true⟩, ⟨7200, false⟩]
        ⟨[], [⟨3600, true⟩], none⟩).entity.timetable
      = [⟨7200, false⟩, ⟨28800, true⟩] := by
  constructor
  · exact C4_reconfig_atomicity.1 ⟨[], [⟨3600, true⟩], none⟩
      ([⟨7200, true⟩, ⟨7200, false⟩]) 32400 (by decide)
  · have h := (C4_reconfig_atomicity.2 ⟨[], [⟨3600, true⟩], none⟩
      ([⟨28800, true⟩, ⟨7200, false⟩]) 32400 (by decide)).2.1
    rw [h]
    rfl

/-- Absence of the requested time, phrased on the membership test. -/
lemma hasTime_eq_false (tt : List StateEvent) (t : Nat) :
    hasTime tt t = false ↔ ∀ e ∈ tt, e.time ≠ t := by
  unfold hasTime
  rw [List.any_eq_false]
  constructor
  · intro h e he
    simpa using h e he
  · intro h e he
    simpa using h e he

/-- Presence of the requested time, phrased on the membership test. -/
lemma hasTime_eq_true (tt : List StateEvent) (t : Nat) :
    hasTime tt t = true ↔ ∃ e ∈ tt, e.time = t := by
  unfold hasTime
  rw [List.any_eq_true]
  constructor
  · intro ⟨e, he, het⟩
    exact ⟨e, he, by simpa using het⟩
  · intro ⟨e, he, het⟩
    exact ⟨e, he, by simpa using het⟩

/-- The `for/else` of `async_unset` removes exactly the first event at the
requested time. -/
lemma removeFirstTime_eq (t : Nat) :
    ∀ tt : List StateEvent, hasTime tt t = true →
      ∃ l1 ev l2, tt = l1 ++ ev :: l2 ∧ ev.time = t ∧ (∀ f ∈ l1, f.time ≠ t)
        ∧ removeFirstTime tt t = l1 ++ l2 := by
  intro tt
  induction tt with
  | nil => intro h; exact absurd h (by simp [hasTime])
  | cons e rest ih =>
    intro h
    by_cases he : e.time = t
    · exact ⟨[], e, rest, rfl, he, by simp, by simp [removeFirstTime, if_pos he]⟩
    · have hr : hasTime rest t = true := by
        rw [hasTime_eq_true] at h ⊢
        rcases h with ⟨f, hf, hft⟩
        rcases List.mem_cons.mp hf with rfl | hf
        · exact absurd hft he
        · exact ⟨f, hf, hft⟩
      obtain ⟨l1, ev, l2, heq, hev, hl1, hrem⟩ := ih hr
      refine ⟨e :: l1, ev, l2, by rw [heq]; rfl, hev, ?_, ?_⟩
      · intro f hf
        rcases List.mem_cons.mp hf with rfl | hf
        · exact he
        · exact hl1 f hf
      · simp only [removeFirstTime, if_neg he, hrem]
        rfl

/-- Failing `async_unset` raises without touching the list. -/
lemma async_unset_not_found (tt : List StateEvent) (t : Nat)
    (h : ∀ e ∈ tt, e.time ≠ t) :
    async_unset tt t = Except.error ("The time does not exist") := by
  unfold async_unset
  rw [(hasTime_eq_false tt t).mpr h]
  rfl

/-- C5: unset failure is pure.  When no event exists at `t` the entity call
returns the raised `NotFoundError` with the entity — timetable bytes, timer
and all — exactly as it was, and nothing recomputed, rescheduled or
published; when an event exists at `t`, exactly its first occurrence is
removed and recomputation, rescheduling and publication all happen. -/
theorem C5_unset_failure_pure :
    (∀ (ent : TTEntity) (t now : Nat),
        (∀ e ∈ ent.timetable, e.time ≠ t) →
        entity_unset now t ent = ⟨ent, none, some ("The time does not exist")⟩)
    ∧ (∀ (ent : TTEntity) (t now : Nat),
        (∃ e ∈ ent.timetable, e.time = t) →
        ∃ l1 ev l2, ent.timetable = l1 ++ ev :: l2 ∧ ev.time = t
          ∧ (∀ f ∈ l1, f.time ≠ t)
          ∧ entity_unset now t ent
            = ⟨⟨ent.config, l1 ++ l2, scheduleTarget (l1 ++ l2) now⟩,
               some (timetable_state (l1 ++ l2) now), none⟩) := by
  refine ⟨?_, ?_⟩
  · intro ent t now h
    unfold entity_unset
    rw [async_unset_not_found ent.timetable t h]
  · intro ent t now h
    have ht : hasTime ent.timetable t = true := (hasTime_eq_true _ t).mpr h
    obtain ⟨l1, ev, l2, heq, hev, hl1, hrem⟩ := removeFirstTime_eq t ent.timetable ht
    refine ⟨l1, ev, l2, heq, hev, hl1, ?_⟩
    unfold entity_unset async_unset
    rw [ht, hrem]
    rfl

/-- Witness for C5: a failing and a succeeding unset on concrete entities. -/
theorem C5_unset_failure_pure_witness :
    entity_unset 3600 7200 ⟨[], [⟨3600, true⟩], some (0, 3600)⟩
      = ⟨⟨[], [⟨3600, true⟩], some (0, 3600)⟩, none, some ("The time does not exist")⟩
    ∧ ∃ l1 ev l2, ([⟨3600, true⟩, ⟨7200, false⟩] : List StateEvent) = l1 ++ ev :: l2
        ∧ StateEvent.time ev = 7200
        ∧ (∀ f ∈ l1, f.time ≠ 7200)
        ∧ entity_unset 60 7200 ⟨[], [⟨3600, true⟩, ⟨7200, false⟩], none⟩
          = ⟨⟨[], l1 ++ l2, scheduleTarget (l1 ++ l2) 60⟩,
             some (timetable_state (l1 ++ l2) 60), none⟩ := by
  constructor
  · exact C5_unset_failure_pure.1 ⟨[], [⟨3600, true⟩], some (0, 3600)⟩ 7200 3600 (by decide)
  · exact C5_unset_failure_pure.2 ⟨[], [⟨3600, true⟩, ⟨7200, false⟩], none⟩ 7200 60
      ⟨⟨7200, false⟩, by decide, rfl⟩

/-- C6 evaluation at the failing input: `_update_state` at 09:00 on the
two-event entity `[(06:00, ON), (18:00, OFF)]` leaves a timer armed for
today 18:00, yet tearing the entity down emits no timer action at all (the
class overrides no removal hook), so the outstanding-timer count stays at 1
instead of dropping to 0 — the armed callback survives the teardown. -/
theorem C6_teardown_leaves_timer :
    (_update_state 32400 ⟨[], [⟨21600, true⟩, ⟨64800, false⟩], none⟩).1.event_unsub
      = some (0, 64800)
    ∧ will_remove_from_hass_actions = []
    ∧ outstandingAfter 1 will_remove_from_hass_actions = 1
    ∧ (1 : Nat) ≠ 0 := by
  refine ⟨by decide, rfl, rfl, by decide⟩

/-- The `for/else` of `async_set`, present case: exactly the first event at
the requested time is overwritten, everything else — later duplicates
included — survives unchanged. -/
lemma updateFirst_eq (t : Nat) (s : Bool) :
    ∀ tt : List StateEvent, hasTime tt t = true →
      ∃ l1 ev l2, tt = l1 ++ ev :: l2 ∧ ev.time = t ∧ (∀ f ∈ l1, f.time ≠ t)
        ∧ updateFirst tt t s = l1 ++ ⟨t, s⟩ :: l2 := by
  intro tt
  induction tt with
  | nil => intro h; exact absurd h (by simp [hasTime])
  | cons e rest ih =>
    intro h
    by_cases he : e.time = t
    · refine ⟨[], e, rest, rfl, he, by simp, ?_⟩
      simp only [updateFirst, if_pos he, he]
      rfl
    · have hr : hasTime rest t = true := by
        rw [hasTime_eq_true] at h ⊢
        rcases h with ⟨f, hf, hft⟩
        rcases List.mem_cons.mp hf with rfl | hf
        · exact absurd hft he
        · exact ⟨f, hf, hft⟩
      obtain ⟨l1, ev, l2, heq, hev, hl1, hupd⟩ := ih hr
      refine ⟨e :: l1, ev, l2, by rw [heq]; rfl, hev, ?_, ?_⟩
      · intro f hf
        rcases List.mem_cons.mp hf with rfl | hf
        · exact he
        · exact hl1 f hf
      · simp only [updateFirst, if_neg he, hupd]
        rfl

/-- Unfolding of `async_set` when an event at the time already exists. -/
lemma async_set_of_hasTime (tt : List StateEvent) (t : Nat) (s : Bool)
    (h : hasTime tt t = true) :
    async_set tt t s = updateFirst tt t s := by
  unfold async_set
  rw [if_pos h]

/-- Unfolding of `async_set` when the time is new. -/
lemma async_set_of_newTime (tt : List StateEvent) (t : Nat) (s : Bool)
    (h : hasTime tt t = false) :
    async_set tt t s = _sort_timetable (tt ++ [⟨t, s⟩]) := by
  unfold async_set
  rw [h]
  rfl

/-- C7 counterexample: restore the corrupt snapshot with two events at
10:00 (`off` first, then `on`; a direct load keeps both, sorted stably).
A following `set(10:00, OFF)` leaves the list with BOTH events — nothing
collapses, the length stays 2 — and the state in effect at 10:00 is ON,
the unmodified last duplicate's state, not the OFF that was just set,
refuting the claimed last-wins collapse. -/
theorem C7_counterexample :
    _timetable_from_attribute [("10:00:00", "off"), ("10:00:00", "on")]
      = some [⟨36000, false⟩, ⟨36000, true⟩]
    ∧ async_set [⟨36000, false⟩, ⟨36000, true⟩] 36000 false
      = [⟨36000, false⟩, ⟨36000, true⟩]
    ∧ (async_set [⟨36000, false⟩, ⟨36000, true⟩] 36000 false).length = 2
    ∧ timetable_state (async_set [⟨36000, false⟩, ⟨36000, true⟩] 36000 false) 36000
      = true := by
  refine ⟨by decide, by decide, by decide, by decide⟩

/-- C7 amended: after a corrupt restore put several events at time `t` in
the table, `set(t, s)` does not consolidate them: only the first event at
`t` has its state overwritten, the length and time sequence are unchanged;
in the concrete corrupt-restore scenario the state in effect at `t` remains
the last duplicate's, not `s`. -/
theorem C7_set_on_duplicates :
    (∀ (tt : List StateEvent) (t : Nat) (s : Bool), hasTime tt t = true →
        (async_set tt t s).map (fun e => e.time) = tt.map (fun e => e.time)
        ∧ (async_set tt t s).length = tt.length
        ∧ ∃ l1 ev l2, tt = l1 ++ ev :: l2 ∧ ev.time = t ∧ (∀ f ∈ l1, f.time ≠ t)
            ∧ async_set tt t s = l1 ++ ⟨t, s⟩ :: l2)
    ∧ timetable_state (async_set [⟨36000, false⟩, ⟨36000, true⟩] 36000 false) 36000
      = true := by
  refine ⟨?_, by decide⟩
  intro tt t s h
  rw [async_set_of_hasTime tt t s h]
  refine ⟨updateFirst_map_time t s tt, ?_, updateFirst_eq t s tt h⟩
  have hmap := congrArg List.length (updateFirst_map_time t s tt)
  rw [List.length_map, List.length_map] at hmap
  exact hmap

/-- Witness for C7 at the corrupt-restore table. -/
theorem C7_set_on_duplicates_witness :
    (async_set [⟨36000, false⟩, ⟨36000, true⟩] 36000 false).length = 2 :=
  (C7_set_on_duplicates.1 [⟨36000, false⟩, ⟨36000, true⟩] 36000 false (by decide)).2.1

/-- Digit characters decode back to their value. -/
lemma digitVal_digitChar : ∀ k < 10, digitVal (digitChar k) = some k := by decide

/-- Time strings the component writes parse back to the same second count. -/
lemma fromiso_toiso (n : Nat) (h : n < 86400) :
    time_fromisoformat (time_isoformat n) = some n := by
  have e1 := digitVal_digitChar (n / 3600 / 10) (by omega)
  have e2 := digitVal_digitChar (n / 3600 % 10) (by omega)
  have e3 := digitVal_digitChar (n % 3600 / 60 / 10) (by omega)
  have e4 := digitVal_digitChar (n % 3600 / 60 % 10) (by omega)
  have e5 := digitVal_digitChar (n % 60 / 10) (by omega)
  have e6 := digitVal_digitChar (n % 60 % 10) (by omega)
  show parseHMS [digitChar (n / 3600 / 10), digitChar (n / 3600 % 10), ':',
      digitChar (n % 3600 / 60 / 10), digitChar (n % 3600 / 60 % 10), ':',
      digitChar (n % 60 / 10), digitChar (n % 60 % 10)] = some n
  simp only [parseHMS, e1, e2, e3, e4, e5, e6]
  rw [if_pos ⟨by trivial, by trivial⟩]
  rw [if_pos (by omega)]
  rw [Option.some.injEq]
  omega

/-- Serializing then reparsing the events gives back exactly the stored
list, in order, before the final re-sort. -/
lemma eventsFromAttribute_toAttr :
    ∀ tt : List StateEvent, (∀ e ∈ tt, e.time < 86400) →
      eventsFromAttribute (_timetable_to_attribute tt) = some tt := by
  intro tt
  induction tt with
  | nil => intro _; rfl
  | cons e rest ih =>
    intro hbound
    obtain ⟨etime, estate⟩ := e
    have he : etime < 86400 := by
      have := hbound ⟨etime, estate⟩ (List.mem_cons_self _ _)
      exact this
    have ihh := ih (fun f hf => hbound f (List.mem_cons_of_mem _ hf))
    simp only [_timetable_to_attribute, List.map_cons] at ihh ⊢
    simp only [eventsFromAttribute]
    rw [show time_fromisoformat (time_isoformat etime) = some etime from
      fromiso_toiso etime he]
    rw [show eventsFromAttribute
        (List.map (fun e => (time_isoformat e.time, if e.state then ("on") else ("off"))) rest)
      = some rest from ihh]
    cases estate <;> rfl

/-- Sorting a strictly sorted timetable is the identity. -/
lemma sort_timetable_of_sorted (tt : List StateEvent) (h : SortedTT tt) :
    _sort_timetable tt = tt :=
  List.Sorted.insertionSort_eq (List.Pairwise.imp (fun hab => Nat.le_of_lt hab) h)

/-- C8: serialization round trip.  For a valid timetable (strictly sorted,
second-resolution times within the day) deserializing its serialized form
gives back exactly the stored table, so serialize-deserialize-serialize
equals serialize. -/
theorem C8_round_trip :
    ∀ tt : List StateEvent, SortedTT tt → (∀ e ∈ tt, e.time < 86400) →
      _timetable_from_attribute (_timetable_to_attribute tt) = some tt
      ∧ Option.map _timetable_to_attribute
          (_timetable_from_attribute (_timetable_to_attribute tt))
        = some (_timetable_to_attribute tt) := by
  intro tt hsort hbound
  have h1 : _timetable_from_attribute (_timetable_to_attribute tt) = some tt := by
    unfold _timetable_from_attribute
    rw [eventsFromAttribute_toAttr tt hbound]
    show some (_sort_timetable tt) = some tt
    rw [sort_timetable_of_sorted tt hsort]
  refine ⟨h1, ?_⟩
  rw [h1]
  rfl

/-- Witness for C8 at the spec's example timetable. -/
theorem C8_round_trip_witness :
    _timetable_from_attribute (_timetable_to_attribute ([⟨28800, true⟩, ⟨72000, false⟩]))
      = some [⟨28800, true⟩, ⟨72000, false⟩] :=
  (C8_round_trip [⟨28800, true⟩, ⟨72000, false⟩] (by decide) (by decide)).1

/-- Overwriting the first event at `t` twice with the same state equals
doing it once. -/
lemma updateFirst_idem (t : Nat) (s : Bool) :
    ∀ tt : List StateEvent, updateFirst (updateFirst tt t s) t s = updateFirst tt t s := by
  intro tt
  induction tt with
  | nil => rfl
  | cons e rest ih =>
    by_cases h : e.time = t
    · simp [updateFirst, if_pos h]
    · simp [updateFirst, if_neg h, ih]

/-- When every event at `t` already carries state `s`, the overwrite is the
identity. -/
lemma updateFirst_of_all_state (t : Nat) (s : Bool) :
    ∀ tt : List StateEvent, (∀ e ∈ tt, e.time = t → e.state = s) →
      updateFirst tt t s = tt := by
  intro tt
  induction tt with
  | nil => intro _; rfl
  | cons e rest ih =>
    intro h
    by_cases he : e.time = t
    · obtain ⟨etime, estate⟩ := e
      have hs : estate = s := h ⟨etime, estate⟩ (List.mem_cons_self _ _) he
      simp only [updateFirst, if_pos he]
      rw [← hs]
    · simp only [updateFirst, if_neg he]
      rw [ih (fun f hf hft => h f (List.mem_cons_of_mem _ hf) hft)]

/-- Membership test expressed on the time sequence. -/
lemma hasTime_eq_map (tt : List StateEvent) (t : Nat) :
    hasTime tt t = (tt.map (fun e => e.time)).any (fun x => x == t) := by
  unfold hasTime
  induction tt with
  | nil => rfl
  | cons e rest ih => simp [List.any_cons, ih]

/-- After any `async_set tt t s` the time `t` is present. -/
lemma hasTime_async_set_self (tt : List StateEvent) (t : Nat) (s : Bool) :
    hasTime (async_set tt t s) t = true := by
  by_cases h : hasTime tt t = true
  · rw [async_set_of_hasTime tt t s h, hasTime_eq_map, updateFirst_map_time,
      ← hasTime_eq_map]
    exact h
  · have hf : hasTime tt t = false := by simpa using h
    rw [async_set_of_newTime tt t s hf]
    rw [hasTime_eq_true]
    refine ⟨⟨t, s⟩, ?_, rfl⟩
    rw [(sort_timetable_perm _).mem_iff]
    exact List.mem_append_right _ (List.mem_singleton_self _)

/-- C9: upsert idempotence.  On a timetable with pairwise distinct times —
`async_set` never fails, it is total — setting the same time and state
twice in a row leaves the event list identical to a single call. -/
theorem C9_set_idempotent :
    ∀ (tt : List StateEvent) (t : Nat) (s : Bool),
      (tt.map (fun e => e.time)).Nodup →
      async_set (async_set tt t s) t s = async_set tt t s := by
  intro tt t s _
  rw [async_set_of_hasTime (async_set tt t s) t s (hasTime_async_set_self tt t s)]
  by_cases h : hasTime tt t = true
  · rw [async_set_of_hasTime tt t s h]
    exact updateFirst_idem t s tt
  · have hf : hasTime tt t = false := by simpa using h
    rw [async_set_of_newTime tt t s hf]
    apply updateFirst_of_all_state
    intro e he het
    rw [(sort_timetable_perm _).mem_iff] at he
    rcases List.mem_append.mp he with he | he
    · exfalso
      rw [hasTime_eq_false] at hf
      exact hf e he het
    · rw [List.mem_singleton.mp he]

/-- Witness for C9 on a concrete table. -/
theorem C9_set_idempotent_witness :
    async_set (async_set [⟨7200, true⟩] 28800 false) 28800 false
      = async_set [⟨7200, true⟩] 28800 false :=
  C9_set_idempotent [⟨7200, true⟩] 28800 false (by decide)

/-- C10: config-update frame property.  `async_update_config` swaps the
configuration wholesale, leaves the stored event list untouched, and still
reschedules the timer and publishes the freshly computed state without
error. -/
theorem C10_update_config_frame :
    ∀ (ent : TTEntity) (cfg : List (String × String)) (now : Nat),
      entity_update_config now cfg ent
        = ⟨⟨cfg, ent.timetable, scheduleTarget ent.timetable now⟩,
           some (timetable_state ent.timetable now), none⟩ := by
  intro ent cfg now
  rfl
